import Mathlib

/-!
Verification of the elf2bin conversion engine specification against the
repository sources.

The ELF reader (`src/arm-software/shared/elf2bin/elf.cpp`) is embedded
directly from its C++ source.  The conversion engine proper (format
encoders, byte-stream assembler, bank splitter, name resolver) is present
in the repository only through its documentation, so those components are
modelled from the specification text; their doc comments say so.
-/

namespace Elf2Bin

/-- One entry of an ELF program header table, with the fields `get_segments`
in `elf.cpp` reads.  Field values are machine words, modelled as `Nat`. -/
structure Phdr where
  p_type : Nat
  p_offset : Nat
  p_vaddr : Nat
  p_paddr : Nat
  p_filesz : Nat
  p_memsz : Nat
deriving DecidableEq, Repr

/-- `llvm::ELF::PT_LOAD`. -/
def PT_LOAD : Nat := 1

/-- The `Segment` record filled in by `get_segments` in `elf.cpp`. -/
structure Segment where
  fileoffset : Nat
  baseaddr : Nat
  filesize : Nat
  memsize : Nat
deriving DecidableEq, Repr

/-- The two fatal conditions of `get_segments` in `elf.cpp`: the program
header table cannot be read, or it is empty. -/
inductive ReaderError where
  | UnableToReadProgramHeaderTable
  | NoProgramHeaderTable
deriving DecidableEq, Repr

/-- The `Segment` built for one `PT_LOAD` header in the loop body of
`get_segments` (`elf.cpp` lines 40-44). -/
def segment_of_phdr (phdr : Phdr) (physical : Bool) : Segment :=
  { fileoffset := phdr.p_offset
    baseaddr := if physical then phdr.p_paddr else phdr.p_vaddr
    filesize := phdr.p_filesz
    memsize := phdr.p_memsz }

/-- `get_segments` from `elf.cpp` (lines 15-49).  `phdrs_or_err = none`
models `program_headers()` failing; `fatal` is modelled as `Except.error`.
The loop skips every header whose `p_type` is not `PT_LOAD` and pushes a
`Segment` for each one that is. -/
def get_segments (phdrs_or_err : Option (List Phdr)) (physical : Bool) :
    Except ReaderError (List Segment) :=
  match phdrs_or_err with
  | none => .error .UnableToReadProgramHeaderTable
  | some phdrs =>
    if phdrs.isEmpty then
      .error .NoProgramHeaderTable
    else
      .ok (phdrs.foldl
        (fun segments phdr =>
          if phdr.p_type ≠ PT_LOAD then segments
          else segments ++ [segment_of_phdr phdr physical])
        [])

/-- The four concrete `ELFObjectFile` subclasses `elf.cpp` dispatches over. -/
inductive ElfClass where
  | elf32le
  | elf32be
  | elf64le
  | elf64be
deriving DecidableEq, Repr

/-- The part of an `ELFObjectFile` that `elf.cpp` consumes: the header's
`e_entry` field and the program header table (or its read failure). -/
structure ELFFile where
  e_entry : Nat
  phdrs_or_err : Option (List Phdr)
deriving DecidableEq, Repr

/-- `InputObject` from `elf2bin.h` as used by `elf.cpp`: an ELF object of
one of the four supported classes. -/
structure InputObject where
  cls : ElfClass
  file : ELFFile
deriving DecidableEq, Repr

/-- `get_entry_point` from `elf.cpp` (lines 51-54): returns the header's
`e_entry` field. -/
def get_entry_point (file : ELFFile) : Nat := file.e_entry

/-- `InputObject::segments` from `elf.cpp` (lines 56-66): dispatch on the
concrete ELF class, then `get_segments`. -/
def InputObject.segments (o : InputObject) (physical : Bool) :
    Except ReaderError (List Segment) :=
  match o.cls with
  | .elf32le => get_segments o.file.phdrs_or_err physical
  | .elf32be => get_segments o.file.phdrs_or_err physical
  | .elf64le => get_segments o.file.phdrs_or_err physical
  | .elf64be => get_segments o.file.phdrs_or_err physical

/-- `InputObject::entry_point` from `elf.cpp` (lines 68-78): dispatch on the
concrete ELF class, then `get_entry_point`. -/
def InputObject.entry_point (o : InputObject) : Nat :=
  match o.cls with
  | .elf32le => get_entry_point o.file
  | .elf32be => get_entry_point o.file
  | .elf64le => get_entry_point o.file
  | .elf64be => get_entry_point o.file

/-- A program header with no interesting content; `p_type = 0` is `PT_NULL`,
so it is not `PT_LOAD`. -/
def nullPhdr : Phdr :=
  { p_type := 0, p_offset := 0, p_vaddr := 0, p_paddr := 0,
    p_filesz := 0, p_memsz := 0 }

/-- The accumulator form of the `get_segments` loop equals a `filterMap`. -/
theorem get_segments_foldl_eq_filterMap (phdrs : List Phdr) (physical : Bool)
    (acc : List Segment) :
    phdrs.foldl
      (fun segments phdr =>
        if phdr.p_type ≠ PT_LOAD then segments
        else segments ++ [segment_of_phdr phdr physical]) acc
    = acc ++ phdrs.filterMap
        (fun phdr =>
          if phdr.p_type = PT_LOAD then some (segment_of_phdr phdr physical)
          else none) := by
  induction phdrs generalizing acc with
  | nil => simp
  | cons phdr rest ih =>
    simp only [List.foldl_cons, List.filterMap_cons]
    by_cases h : phdr.p_type = PT_LOAD
    · rw [if_neg (by simp [h]), if_pos h, ih]
      simp
    · rw [if_pos h, if_neg h, ih]

/-- `C1` as stated is false: a readable, non-empty program header table with
zero `PT_LOAD` entries makes `get_segments` return an empty segment list
without any error. -/
theorem claim_C1_counterexample :
    get_segments (some [nullPhdr]) true = .ok [] := by
  rfl

/-- `C1` (amended): `get_segments` fails fatally when the readable program
header table is empty; when the table is non-empty but contains zero
`PT_LOAD` entries, it returns an empty segment list without error. -/
theorem claim_C1_amended (physical : Bool) (phdrs : List Phdr)
    (hne : phdrs ≠ [])
    (hload : ∀ phdr ∈ phdrs, phdr.p_type ≠ PT_LOAD) :
    get_segments (some []) physical = .error .NoProgramHeaderTable
    ∧ get_segments (some phdrs) physical = .ok [] := by
  constructor
  · simp [get_segments]
  · simp only [get_segments, List.isEmpty_iff, hne, if_neg]
    rw [get_segments_foldl_eq_filterMap]
    have : phdrs.filterMap
        (fun phdr =>
          if phdr.p_type = PT_LOAD then some (segment_of_phdr phdr physical)
          else none) = [] := by
      rw [List.filterMap_eq_nil_iff]
      intro phdr hmem
      simp [hload phdr hmem]
    simp [this]

/-- Witness for `claim_C1_amended` at a one-entry `PT_NULL` table. -/
theorem claim_C1_amended_witness :
    get_segments (some []) true = .error .NoProgramHeaderTable
    ∧ get_segments (some [nullPhdr]) true = .ok [] :=
  claim_C1_amended true [nullPhdr] (by decide)
    (by intro phdr hmem; simp at hmem; subst hmem; decide)

/-- `C2`: for a readable, non-empty program header table, the segment list
contains exactly the `PT_LOAD` headers, in program-header order, with
`fileoffset = p_offset`, `filesize = p_filesz`, `memsize = p_memsz` and
`baseaddr` the physical or virtual address per the `physical` flag. -/
theorem claim_C2_get_segments_characterisation (phdrs : List Phdr)
    (physical : Bool) (hne : phdrs ≠ []) :
    get_segments (some phdrs) physical
    = .ok (phdrs.filterMap
        (fun phdr =>
          if phdr.p_type = PT_LOAD then
            some { fileoffset := phdr.p_offset
                   baseaddr := if physical then phdr.p_paddr else phdr.p_vaddr
                   filesize := phdr.p_filesz
                   memsize := phdr.p_memsz }
          else none)) := by
  simp only [get_segments, List.isEmpty_iff, hne, if_neg]
  rw [get_segments_foldl_eq_filterMap]
  rfl

/-- Witness for `claim_C2_get_segments_characterisation`: a two-entry table
whose first header is `PT_NULL` and second is `PT_LOAD`. -/
theorem claim_C2_witness :
    get_segments
      (some [nullPhdr,
             { p_type := 1, p_offset := 52, p_vaddr := 4096, p_paddr := 8192,
               p_filesz := 10, p_memsz := 20 }]) true
    = .ok [{ fileoffset := 52, baseaddr := 8192, filesize := 10,
             memsize := 20 }] := by
  rw [claim_C2_get_segments_characterisation _ _ (by decide)]
  rfl

/-- `C3` as stated is false: `get_segments` performs no validation of the
size fields, so a `PT_LOAD` header whose `p_filesz` exceeds its `p_memsz`
is returned as an ordinary segment, not rejected with any error. -/
theorem claim_C3_counterexample :
    get_segments
      (some [{ p_type := 1, p_offset := 0, p_vaddr := 0, p_paddr := 0,
               p_filesz := 2, p_memsz := 1 }]) true
    = .ok [{ fileoffset := 0, baseaddr := 0, filesize := 2, memsize := 1 }] := by
  rfl

/-- `C3` (amended): the upstream ELF reader does not check segment size
relationships: for every `PT_LOAD` header, whatever its `p_filesz` and
`p_memsz`, `get_segments` succeeds and hands the segment on unchanged, so
downstream stages can receive a segment with `filesize > memsize`. -/
theorem claim_C3_amended (phdr : Phdr) (physical : Bool)
    (hload : phdr.p_type = PT_LOAD) :
    get_segments (some [phdr]) physical
    = .ok [segment_of_phdr phdr physical] := by
  rw [claim_C2_get_segments_characterisation _ _ (by simp)]
  simp [hload, segment_of_phdr]

/-- Witness for `claim_C3_amended` at a header with `p_filesz > p_memsz`. -/
theorem claim_C3_amended_witness :
    get_segments
      (some [{ p_type := 1, p_offset := 7, p_vaddr := 3, p_paddr := 5,
               p_filesz := 9, p_memsz := 4 }]) false
    = .ok [segment_of_phdr
        { p_type := 1, p_offset := 7, p_vaddr := 3, p_paddr := 5,
          p_filesz := 9, p_memsz := 4 } false] :=
  claim_C3_amended _ false (by decide)

/-- `C9`: for every supported ELF class, `InputObject::entry_point` returns
exactly the header's `e_entry` field, unmodified. -/
theorem claim_C9_entry_point (o : InputObject) :
    o.entry_point = o.file.e_entry := by
  cases h : o.cls <;> simp [InputObject.entry_point, h, get_entry_point]

/-- The fields of a `Segment` other than `baseaddr` agree. -/
def segFrame (s t : Segment) : Prop :=
  s.fileoffset = t.fileoffset ∧ s.filesize = t.filesize
    ∧ s.memsize = t.memsize

instance : DecidablePred fun p : Segment × Segment => segFrame p.1 p.2 :=
  fun p => by unfold segFrame; infer_instance

/-- `C10`: for every input object, the physical and virtual segment queries
fail identically, and on success return lists of the same length whose
corresponding elements agree on `fileoffset`, `filesize` and `memsize`;
only `baseaddr` can differ. -/
theorem claim_C10_physical_frame (o : InputObject) :
    (∀ e, o.segments true = .error e ↔ o.segments false = .error e)
    ∧ (∀ l₁ l₂, o.segments true = .ok l₁ → o.segments false = .ok l₂ →
        l₁.length = l₂.length ∧ List.Forall₂ segFrame l₁ l₂) := by
  have core : ∀ (phdrs_or_err : Option (List Phdr)),
      (∀ e, get_segments phdrs_or_err true = .error e ↔
            get_segments phdrs_or_err false = .error e)
      ∧ (∀ l₁ l₂, get_segments phdrs_or_err true = .ok l₁ →
          get_segments phdrs_or_err false = .ok l₂ →
          l₁.length = l₂.length ∧ List.Forall₂ segFrame l₁ l₂) := by
    intro phdrs_or_err
    match phdrs_or_err with
    | none => exact ⟨fun e => Iff.rfl, fun l₁ l₂ h₁ => by simp [get_segments] at h₁⟩
    | some phdrs =>
      by_cases hne : phdrs = []
      · subst hne
        exact ⟨fun e => Iff.rfl,
          fun l₁ l₂ h₁ => by simp [get_segments] at h₁⟩
      · constructor
        · intro e
          rw [claim_C2_get_segments_characterisation phdrs true hne,
              claim_C2_get_segments_characterisation phdrs false hne]
          constructor <;> intro h <;> cases h
        · intro l₁ l₂ h₁ h₂
          rw [claim_C2_get_segments_characterisation phdrs true hne] at h₁
          rw [claim_C2_get_segments_characterisation phdrs false hne] at h₂
          cases h₁
          cases h₂
          have hf : List.Forall₂ segFrame
              (phdrs.filterMap
                (fun phdr =>
                  if phdr.p_type = PT_LOAD then
                    some { fileoffset := phdr.p_offset
                           baseaddr := if true = true then phdr.p_paddr
                                       else phdr.p_vaddr
                           filesize := phdr.p_filesz
                           memsize := phdr.p_memsz }
                  else none))
              (phdrs.filterMap
                (fun phdr =>
                  if phdr.p_type = PT_LOAD then
                    some { fileoffset := phdr.p_offset
                           baseaddr := if false = true then phdr.p_paddr
                                       else phdr.p_vaddr
                           filesize := phdr.p_filesz
                           memsize := phdr.p_memsz }
                  else none)) := by
            clear hne
            induction phdrs with
            | nil => exact List.Forall₂.nil
            | cons phdr rest ih =>
              by_cases h : phdr.p_type = PT_LOAD
              · simp only [List.filterMap_cons, h, if_pos]
                exact List.Forall₂.cons ⟨rfl, rfl, rfl⟩ ih
              · simpa [List.filterMap_cons, h] using ih
          exact ⟨hf.length_eq, hf⟩
  cases o with
  | mk cls file =>
    cases cls <;> exact core file.phdrs_or_err

/-- Witness for `claim_C10_physical_frame` at a concrete one-segment
object whose physical and virtual addresses differ. -/
theorem claim_C10_witness :
    List.Forall₂ segFrame
      [{ fileoffset := 52, baseaddr := 8192, filesize := 10, memsize := 20 }]
      [{ fileoffset := 52, baseaddr := 4096, filesize := 10, memsize := 20 }] := by
  have h := (claim_C10_physical_frame
    { cls := .elf32le,
      file := { e_entry := 0,
                phdrs_or_err :=
                  some [{ p_type := 1, p_offset := 52, p_vaddr := 4096,
                          p_paddr := 8192, p_filesz := 10, p_memsz := 20 }] } }).2
  exact (h _ _ (by rfl) (by rfl)).2

/-! ### The conversion engine, modelled from the specification

The engine itself (byte-stream assembler, format encoders, bank splitter,
name resolver) is present in the repository only through its documentation
(`elf2bin.md`), so the definitions below are modelled from the
specification text. -/

/-- Modelled from the spec: the `Segment` record of §3 consumed by the
engine, whose implementation is not under `src/` (only its documentation).
`{ base_address, file_bytes, mem_size }`. -/
structure SpecSegment where
  base_address : Nat
  file_bytes : List Nat
  mem_size : Nat
deriving DecidableEq, Repr

/-- Modelled from the spec: the Byte-Stream Assembler of §4.2, not under
`src/`.  Base content is exactly `file_bytes`; with `include_zero_init`,
`mem_size - file_bytes.len()` zero bytes are appended. -/
def assemble (s : SpecSegment) (include_zero_init : Bool) : List Nat :=
  if include_zero_init then
    s.file_bytes ++ List.replicate (s.mem_size - s.file_bytes.length) 0
  else
    s.file_bytes

/-- `C8`: `assemble s false` is exactly `s.file_bytes` (hence of the same
length), and whenever `mem_size ≥ len(file_bytes)`, `assemble s true` is
`file_bytes` followed by `mem_size - len(file_bytes)` zero bytes, of total
length `mem_size`. -/
theorem claim_C8_assemble (s : SpecSegment) :
    assemble s false = s.file_bytes
    ∧ (assemble s false).length = s.file_bytes.length
    ∧ (s.file_bytes.length ≤ s.mem_size →
        assemble s true
          = s.file_bytes
            ++ List.replicate (s.mem_size - s.file_bytes.length) 0
        ∧ (assemble s true).length = s.mem_size) := by
  refine ⟨rfl, rfl, fun h => ⟨rfl, ?_⟩⟩
  simp only [assemble, if_pos, List.length_append, List.length_replicate]
  omega

/-- Witness for `claim_C8_assemble` at a concrete segment with two stored
bytes and `mem_size = 5`. -/
theorem claim_C8_witness :
    assemble { base_address := 0, file_bytes := [1, 2], mem_size := 5 } false
      = [1, 2]
    ∧ assemble { base_address := 0, file_bytes := [1, 2], mem_size := 5 } true
      = [1, 2] ++ List.replicate 3 0
    ∧ (assemble { base_address := 0, file_bytes := [1, 2], mem_size := 5 }
        true).length = 5 := by
  have h := claim_C8_assemble
    { base_address := 0, file_bytes := [1, 2], mem_size := 5 }
  exact ⟨h.1, (h.2.2 (by decide)).1, (h.2.2 (by decide)).2⟩

/-- Modelled from the spec: one assembled `(base_address, bytes)` pair as
consumed by the Format Encoders of §4.3, not under `src/`. -/
structure AssembledSegment where
  base_address : Nat
  bytes : List Nat
deriving DecidableEq, Repr

/-- One past the last address occupied by an assembled segment. -/
def segmentEnd (s : AssembledSegment) : Nat := s.base_address + s.bytes.length

/-- Minimum `base_address` over a selection of segments (0 for an empty
selection, which the engine rejects upstream). -/
def minBase : List AssembledSegment → Nat
  | [] => 0
  | s :: rest => if rest = [] then s.base_address
                 else min s.base_address (minBase rest)

/-- Maximum `base_address + len(bytes)` over a selection of segments. -/
def maxEnd (segs : List AssembledSegment) : Nat :=
  segs.foldr (fun s m => max (segmentEnd s) m) 0

/-- Modelled from the spec: `effective_base` of the BinCombined encoder
(§4.3), not under `src/`: `min(base_override, min base_address)`, or the
minimum base address when no override is given. -/
def effectiveBase (base_override : Option Nat)
    (segs : List AssembledSegment) : Nat :=
  match base_override with
  | none => minBase segs
  | some b => min b (minBase segs)

/-- The byte the combined buffer holds at absolute address `addr`: the byte
of the first segment covering `addr`, and 0 outside every segment (gap
filler).  Overlap is a fatal `OverlappingSegments` error upstream and never
reaches this point. -/
def combinedByte (segs : List AssembledSegment) (addr : Nat) : Nat :=
  match segs with
  | [] => 0
  | s :: rest =>
    if s.base_address ≤ addr ∧ addr < segmentEnd s then
      s.bytes.getD (addr - s.base_address) 0
    else
      combinedByte rest addr

/-- Modelled from the spec: the BinCombined buffer construction of §4.3,
not under `src/` (only its documentation): the buffer begins at
`effective_base`, is `maxEnd - effective_base` bytes long, holds each
selected segment's bytes at `base_address - effective_base`, and zero
bytes everywhere else. -/
def binCombined (base_override : Option Nat)
    (segs : List AssembledSegment) : List Nat :=
  (List.range (maxEnd segs - effectiveBase base_override segs)).map
    (fun i => combinedByte segs (effectiveBase base_override segs + i))

theorem minBase_le {segs : List AssembledSegment} {s : AssembledSegment}
    (h : s ∈ segs) : minBase segs ≤ s.base_address := by
  induction segs with
  | nil => cases h
  | cons a rest ih =>
    rcases List.mem_cons.mp h with rfl | hmem
    · by_cases hr : rest = [] <;> simp [minBase, hr]
    · have hne : rest ≠ [] := by rintro rfl; cases hmem
      calc minBase (a :: rest) ≤ minBase rest := by
            simp [minBase, hne]
        _ ≤ s.base_address := ih hmem

theorem effectiveBase_le {bo : Option Nat} {segs : List AssembledSegment}
    {s : AssembledSegment} (h : s ∈ segs) :
    effectiveBase bo segs ≤ s.base_address := by
  cases bo with
  | none => exact minBase_le h
  | some b => exact le_trans (min_le_right _ _) (minBase_le h)

theorem combinedByte_eq_zero {segs : List AssembledSegment} {addr : Nat}
    (h : ∀ s ∈ segs, ¬(s.base_address ≤ addr ∧ addr < segmentEnd s)) :
    combinedByte segs addr = 0 := by
  induction segs with
  | nil => rfl
  | cons a rest ih =>
    rw [combinedByte, if_neg (h a (List.mem_cons_self a rest))]
    exact ih fun s hs => h s (List.mem_cons_of_mem a hs)

theorem getD_range_map {α : Type _} (f : Nat → α) (d : α) (n i : Nat)
    (h : i < n) : (((List.range n).map f).getD i d) = f i := by
  rw [List.getD_eq_getElem?_getD, List.getElem?_map, List.getElem?_range h]
  rfl

/-- Scenario A of §8, evaluated: segments at `0x8000` (`AA BB CC DD`) and
`0x9000` (`11 22`), no base override. -/
theorem scenarioA_eval :
    binCombined none
      [{ base_address := 0x8000, bytes := [0xAA, 0xBB, 0xCC, 0xDD] },
       { base_address := 0x9000, bytes := [0x11, 0x22] }]
    = [0xAA, 0xBB, 0xCC, 0xDD] ++ List.replicate 4092 0 ++ [0x11, 0x22] := by
  have hbase : effectiveBase none
      [{ base_address := 0x8000, bytes := [0xAA, 0xBB, 0xCC, 0xDD] },
       { base_address := 0x9000, bytes := [0x11, 0x22] }] = 0x8000 := by
    decide
  have hsize : maxEnd
      [{ base_address := 0x8000, bytes := [0xAA, 0xBB, 0xCC, 0xDD] },
       { base_address := 0x9000, bytes := [0x11, 0x22] }]
      - effectiveBase none
        [{ base_address := 0x8000, bytes := [0xAA, 0xBB, 0xCC, 0xDD] },
         { base_address := 0x9000, bytes := [0x11, 0x22] }]
      = 4 + (4092 + 2) := by decide
  unfold binCombined
  rw [hsize, List.range_add, List.range_add]
  simp only [List.map_append, List.map_map, List.append_assoc, hbase]
  refine congrArg₂ (· ++ ·) (by decide) (congrArg₂ (· ++ ·) ?_ (by decide))
  rw [List.eq_replicate_iff]
  refine ⟨by simp, ?_⟩
  intro b hb
  obtain ⟨j, hj, rfl⟩ := List.mem_map.mp hb
  have hjlt : j < 4092 := List.mem_range.mp hj
  simp only [Function.comp_apply]
  apply combinedByte_eq_zero
  intro s hs
  rcases List.mem_cons.mp hs with rfl | hs2
  · simp only [segmentEnd, List.length_cons, List.length_nil]
    omega
  · rcases List.mem_cons.mp hs2 with rfl | hs3
    · simp only [segmentEnd, List.length_cons, List.length_nil]
      omega
    · cases hs3

/-- `C4`: in `BinCombined` mode the buffer is exactly
`maxEnd - effective_base` bytes long; every position covered by no selected
segment is zero; Scenario A (segments at `0x8000` with `AA BB CC DD` and
`0x9000` with `11 22`, no base override) yields the 4098-byte buffer
`AA BB CC DD`, 4092 zeros, `11 22`; and a base override below the lowest
segment address makes the first `lowest - base` bytes all zero. -/
theorem claim_C4_binCombined (bo : Option Nat)
    (segs : List AssembledSegment) :
    (binCombined bo segs).length = maxEnd segs - effectiveBase bo segs
    ∧ (∀ i, i < maxEnd segs - effectiveBase bo segs →
        (∀ s ∈ segs,
          ¬(s.base_address ≤ effectiveBase bo segs + i
            ∧ effectiveBase bo segs + i < segmentEnd s)) →
        (binCombined bo segs).getD i 0 = 0)
    ∧ binCombined none
        [{ base_address := 0x8000, bytes := [0xAA, 0xBB, 0xCC, 0xDD] },
         { base_address := 0x9000, bytes := [0x11, 0x22] }]
      = [0xAA, 0xBB, 0xCC, 0xDD] ++ List.replicate 4092 0 ++ [0x11, 0x22]
    ∧ (∀ b, b < minBase segs → ∀ i, i < minBase segs - b →
        (binCombined (some b) segs).getD i 0 = 0) := by
  refine ⟨by simp [binCombined], ?_, scenarioA_eval, ?_⟩
  · intro i hi hout
    rw [binCombined, getD_range_map _ _ _ _ hi]
    exact combinedByte_eq_zero hout
  · intro b hb i hi
    have hbase : effectiveBase (some b) segs = b := by
      show min b (minBase segs) = b
      exact min_eq_left (Nat.le_of_lt hb)
    have hrange : i < maxEnd segs - effectiveBase (some b) segs := by
      rw [hbase]
      have : minBase segs ≤ maxEnd segs := by
        cases segs with
        | nil => simp [minBase] at hb
        | cons s rest =>
          calc minBase (s :: rest) ≤ s.base_address :=
                minBase_le (List.mem_cons_self s rest)
            _ ≤ segmentEnd s := Nat.le_add_right _ _
            _ ≤ maxEnd (s :: rest) := le_max_left _ _
      omega
    rw [binCombined, getD_range_map _ _ _ _ hrange]
    apply combinedByte_eq_zero
    intro s hs hcov
    have h1 := minBase_le hs
    rw [hbase] at hcov
    omega

/-- Witness for `claim_C4_binCombined`: concrete gap and pre-padding bytes
of the Scenario A segment pair, obtained from the theorem itself. -/
theorem claim_C4_witness :
    (binCombined none
        [{ base_address := 0x8000, bytes := [0xAA, 0xBB, 0xCC, 0xDD] },
         { base_address := 0x9000, bytes := [0x11, 0x22] }]).getD 4 0 = 0
    ∧ (binCombined (some 0x6000)
        [{ base_address := 0x8000, bytes := [0xAA, 0xBB, 0xCC, 0xDD] },
         { base_address := 0x9000, bytes := [0x11, 0x22] }]).getD 0 0 = 0 := by
  have h := claim_C4_binCombined none
    [{ base_address := 0x8000, bytes := [0xAA, 0xBB, 0xCC, 0xDD] },
     { base_address := 0x9000, bytes := [0x11, 0x22] }]
  have h2 := claim_C4_binCombined (some 0x6000)
    [{ base_address := 0x8000, bytes := [0xAA, 0xBB, 0xCC, 0xDD] },
     { base_address := 0x9000, bytes := [0x11, 0x22] }]
  constructor
  · exact h.2.1 4 (by decide) (by decide)
  · exact h2.2.2.2 0x6000 (by decide) 0 (by decide)

/-! ### Intel hex encoder, modelled from the specification -/

/-- Upper-case hexadecimal digit for `n < 16`. -/
def hexDigitChar (n : Nat) : Char :=
  if n < 10 then Char.ofNat (48 + n) else Char.ofNat (55 + n)

/-- Two-digit upper-case hexadecimal rendering of a byte. -/
def toHex2 (n : Nat) : String :=
  ⟨[hexDigitChar (n / 16 % 16), hexDigitChar (n % 16)]⟩

/-- Standard Intel hex checksum: two's complement of the low byte of the sum
of all preceding record bytes (§6). -/
def ihexChecksum (fields : List Nat) : Nat :=
  (256 - fields.sum % 256) % 256

/-- One Intel hex line: `:`, byte count, 16-bit address field, record type,
data, checksum (§6). -/
def ihexRecordString (rectype addr : Nat) (data : List Nat) : String :=
  let fields := data.length :: addr / 256 % 256 :: addr % 256 :: rectype :: data
  ":" ++ String.join (fields.map toHex2) ++ toHex2 (ihexChecksum fields)

/-- The record kinds the Intel hex encoder emits: data records, extended
linear address records (the upper 16 bits of the 32-bit linear address),
and the end-of-file record. -/
inductive IhexRecord where
  | data (addr : Nat) (bytes : List Nat)
  | ela (hi : Nat)
  | eof
deriving DecidableEq, Repr

/-- Wire rendering of one record: a data record carries the low 16 bits of
its absolute address, an extended linear address record carries the upper
16 bits, and the end-of-file record is type 01. -/
def renderRecord : IhexRecord → String
  | .data addr bytes => ihexRecordString 0 (addr % 65536) bytes
  | .ela hi => ihexRecordString 4 0 [hi / 256 % 256, hi % 256]
  | .eof => ihexRecordString 1 0 []

/-- Fuel-indexed worker for `chunkList`; the fuel is the list length, so it
never runs out. -/
def chunkListGo {α : Type _} (fuel rl : Nat) (xs : List α) : List (List α) :=
  match fuel, xs with
  | _, [] => []
  | 0, _ :: _ => []
  | fuel + 1, x :: rest =>
    (x :: rest).take rl :: chunkListGo fuel rl ((x :: rest).drop rl)

/-- Split a byte list into consecutive chunks of at most `rl` bytes (the
per-record chunking discipline of §4.3; `rl = 0` is rejected upstream). -/
def chunkList {α : Type _} (rl : Nat) (xs : List α) : List (List α) :=
  if rl = 0 then [] else chunkListGo xs.length rl xs

/-- One folding step of the record generator: emit an extended linear
address record when the upper 16 address bits change, then the data record
for the chunk; state is (records so far, current upper bits, address). -/
def ihexStep (acc : List IhexRecord × Nat × Nat) (chunk : List Nat) :
    List IhexRecord × Nat × Nat :=
  let (recs, cur, a) := acc
  let hi := a / 65536
  let elaRecs := if hi = cur then [] else [IhexRecord.ela hi]
  (recs ++ elaRecs ++ [IhexRecord.data a chunk], hi, a + chunk.length)

/-- Records for one segment starting at `addr`, given the current upper
16 address bits `cur`; returns the records and the new upper bits. -/
def segRecords (rl cur addr : Nat) (bytes : List Nat) :
    List IhexRecord × Nat :=
  let res := (chunkList rl bytes).foldl ihexStep ([], cur, addr)
  (res.1, res.2.1)

/-- Modelled from the spec: body records of the IntelHex encoder of §4.3,
not under `src/` (only its documentation): all segments' data records in
order, with extended linear address records threaded through. -/
def ihexBody (rl cur : Nat) : List AssembledSegment → List IhexRecord
  | [] => []
  | s :: rest =>
    let res := segRecords rl cur s.base_address s.bytes
    res.1 ++ ihexBody rl res.2 rest

/-- The configuration and data errors of the IntelHex encoder (§4.3). -/
inductive EncodeError where
  | RecordLengthOutOfRange
  | AddressOverflow
deriving DecidableEq, Repr

/-- Modelled from the spec: the IntelHex encoder of §4.3, not under `src/`
(only its documentation): fails with `RecordLengthOutOfRange` when the
requested record length exceeds the format maximum 255, with
`AddressOverflow` when some byte's absolute address exceeds `0xFFFFFFFF`,
and otherwise renders all data records followed by the end-of-file
record. -/
def intelHexEncode (segs : List AssembledSegment) (record_length : Nat) :
    Except EncodeError (List String) :=
  if 255 < record_length then
    .error .RecordLengthOutOfRange
  else if segs.any (fun s =>
      !s.bytes.isEmpty
        && decide (0x100000000 < s.base_address + s.bytes.length)) then
    .error .AddressOverflow
  else
    .ok ((ihexBody record_length 0 segs ++ [IhexRecord.eof]).map renderRecord)

theorem chunkListGo_length_le {α : Type _} (rl : Nat) :
    ∀ (fuel : Nat) (xs : List α) (c : List α),
      c ∈ chunkListGo fuel rl xs → c.length ≤ rl := by
  intro fuel
  induction fuel with
  | zero =>
    intro xs c hc
    cases xs <;> simp [chunkListGo] at hc
  | succ fuel ih =>
    intro xs c hc
    cases xs with
    | nil => simp [chunkListGo] at hc
    | cons x rest =>
      rw [chunkListGo] at hc
      rcases List.mem_cons.mp hc with rfl | hc2
      · simp [Nat.min_le_left rl (x :: rest).length]
      · exact ih _ _ hc2

theorem chunkList_length_le {α : Type _} (rl : Nat) (xs : List α)
    (c : List α) (hc : c ∈ chunkList rl xs) : c.length ≤ rl := by
  unfold chunkList at hc
  by_cases h : rl = 0
  · simp [h] at hc
  · rw [if_neg h] at hc
    exact chunkListGo_length_le rl _ _ _ hc

/-- A record is a data record of at most `rl` bytes, or not a data
record at all. -/
def DataLenLE (rl : Nat) (r : IhexRecord) : Prop :=
  ∀ a c, r = IhexRecord.data a c → c.length ≤ rl

theorem foldl_ihexStep_data_le (rl : Nat) :
    ∀ (chunks : List (List Nat)), (∀ c ∈ chunks, c.length ≤ rl) →
      ∀ (recs : List IhexRecord) (cur a : Nat),
        (∀ r ∈ recs, DataLenLE rl r) →
        ∀ r ∈ (chunks.foldl ihexStep (recs, cur, a)).1, DataLenLE rl r := by
  intro chunks
  induction chunks with
  | nil => intro _ recs cur a hrecs r hr; exact hrecs r hr
  | cons ch rest ih =>
    intro hc recs cur a hrecs r hr
    rw [List.foldl_cons] at hr
    refine ih (fun c hmem => hc c (List.mem_cons_of_mem ch hmem)) _ _ _
      ?_ r hr
    intro r2 hr2
    show DataLenLE rl r2
    have : r2 ∈ recs
        ++ (if a / 65536 = cur then [] else [IhexRecord.ela (a / 65536)])
        ++ [IhexRecord.data a ch] := hr2
    rcases List.mem_append.mp this with h1 | h2
    · rcases List.mem_append.mp h1 with h1a | h1b
      · exact hrecs r2 h1a
      · intro ad c hdc
        exfalso
        by_cases hcase : a / 65536 = cur
        · simp [hcase] at h1b
        · simp [hcase] at h1b
          simp [h1b] at hdc
    · intro ad c hdc
      have : r2 = IhexRecord.data a ch := by simpa using h2
      rw [this] at hdc
      cases hdc
      exact hc ch (List.mem_cons_self ch rest)

theorem segRecords_data_le (rl cur addr : Nat) (bytes : List Nat) :
    ∀ r ∈ (segRecords rl cur addr bytes).1, DataLenLE rl r := by
  intro r hr
  unfold segRecords at hr
  exact foldl_ihexStep_data_le rl (chunkList rl bytes)
    (fun c hc => chunkList_length_le rl bytes c hc) [] cur addr
    (by intro r2 hr2; cases hr2) r hr

theorem ihexBody_data_le (rl : Nat) :
    ∀ (segs : List AssembledSegment) (cur : Nat),
      ∀ r ∈ ihexBody rl cur segs, DataLenLE rl r := by
  intro segs
  induction segs with
  | nil => intro cur r hr; cases hr
  | cons s rest ih =>
    intro cur r hr
    rw [ihexBody] at hr
    rcases List.mem_append.mp hr with h1 | h2
    · exact segRecords_data_le rl cur s.base_address s.bytes r h1
    · exact ih _ r h2

/-- `C5` as stated is false: the Intel hex data record for 3 bytes
`01 02 03` at address 0 carries the standard two's-complement checksum
`F7` (sum of `03 00 00 00 01 02 03` is `0x09`), not the claimed `F1`. -/
theorem claim_C5_counterexample :
    ¬ intelHexEncode [{ base_address := 0, bytes := [1, 2, 3] }] 16
      = .ok [":03000000010203F1", ":00000001FF"] := by
  intro h
  rw [show intelHexEncode [{ base_address := 0, bytes := [1, 2, 3] }] 16
      = .ok [":03000000010203F7", ":00000001FF"] from rfl] at h
  injection h with h1
  injection h1 with h2
  exact absurd h2 (by decide)

/-- `C5` (amended): every data record emitted by the IntelHex encoder
holds at most `record_length` bytes; a record length above the format
maximum 255 fails with `RecordLengthOutOfRange`; and one segment at
address 0 with bytes `01 02 03` at record length 16 encodes to exactly the
data record `:03000000010203F7` (standard checksum `F7`) followed by the
end-of-file record `:00000001FF`. -/
theorem claim_C5_amended (segs : List AssembledSegment) (rl : Nat) :
    (∀ r ∈ ihexBody rl 0 segs, ∀ a c, r = IhexRecord.data a c →
      c.length ≤ rl)
    ∧ (255 < rl → intelHexEncode segs rl = .error .RecordLengthOutOfRange)
    ∧ intelHexEncode [{ base_address := 0, bytes := [1, 2, 3] }] 16
      = .ok [":03000000010203F7", ":00000001FF"] := by
  refine ⟨ihexBody_data_le rl segs 0, ?_, rfl⟩
  intro h
  unfold intelHexEncode
  rw [if_pos h]

/-- Witness for `claim_C5_amended`: the out-of-range failure at record
length 256 and the Scenario B encoding, from the theorem itself. -/
theorem claim_C5_witness :
    intelHexEncode [{ base_address := 0, bytes := [1, 2, 3] }] 256
      = .error .RecordLengthOutOfRange
    ∧ intelHexEncode [{ base_address := 0, bytes := [1, 2, 3] }] 16
      = .ok [":03000000010203F7", ":00000001FF"] := by
  have h := claim_C5_amended [{ base_address := 0, bytes := [1, 2, 3] }] 256
  exact ⟨h.2.1 (by decide), h.2.2⟩

/-! ### Bank splitter, modelled from the specification -/

/-- Modelled from the spec: `BankConfig` of §3, not under `src/`:
`{ width, count }`, both at least 1 in valid configurations. -/
structure BankConfig where
  width : Nat
  count : Nat
deriving DecidableEq, Repr

/-- The bank receiving the byte at absolute position `p`:
`(p mod (width*count)) / width` (§4.4). -/
def bankIndex (bank : BankConfig) (p : Nat) : Nat :=
  p % (bank.width * bank.count) / bank.width

/-- Modelled from the spec: the Bank Splitter of §4.4, not under `src/`
(only its documentation): bank `k` accumulates, in increasing position
order, exactly the source bytes at positions `p` with
`bankIndex bank p = k`; banks receiving no bytes are empty. -/
def split (B : List Nat) (bank : BankConfig) : List (List Nat) :=
  (List.range bank.count).map (fun k =>
    (List.range B.length).filterMap
      (fun p => if bankIndex bank p = k then B[p]? else none))

/-- Position within its bank of the byte at source position `p`: the
number of earlier positions routed to the same bank. -/
def slotOf (bank : BankConfig) (p : Nat) : Nat :=
  (List.range p).countP (fun q => bankIndex bank q == bankIndex bank p)

/-- Reconstruction of §8's round-trip: for each `p` in order, the byte the
splitter placed for `p` (bank `bankIndex bank p`, slot `slotOf bank p`). -/
def unsplit (banks : List (List Nat)) (bank : BankConfig) (len : Nat) :
    List Nat :=
  (List.range len).filterMap
    (fun p => (banks.getD (bankIndex bank p) [])[slotOf bank p]?)

theorem filterMap_getElem_countP {α β : Type _} (f : α → Option β) :
    ∀ (l : List α) (i : Nat) (h : i < l.length) (b : β),
      f l[i] = some b →
      (l.filterMap f)[(l.take i).countP (fun x => (f x).isSome)]?
        = some b := by
  intro l
  induction l with
  | nil => intro i h; exact absurd h (by simp)
  | cons a t ih =>
    intro i h b hb
    cases i with
    | zero =>
      simp only [List.take_zero, List.countP_nil]
      simp only [List.getElem_cons_zero] at hb
      simp [List.filterMap_cons, hb]
    | succ i =>
      have ht : i < t.length := by simpa using h
      simp only [List.getElem_cons_succ] at hb
      simp only [List.take_succ_cons, List.countP_cons]
      cases hfa : f a with
      | none =>
        simp only [List.filterMap_cons, hfa, Option.isSome_none,
          Bool.false_eq_true, if_false, Nat.add_zero]
        exact ih i ht b hb
      | some c =>
        simp only [List.filterMap_cons, hfa, Option.isSome_some, if_true]
        rw [List.getElem?_cons_succ]
        exact ih i ht b hb

theorem split_length (B : List Nat) (bank : BankConfig) :
    (split B bank).length = bank.count := by
  simp [split]

theorem bankIndex_lt (bank : BankConfig) (hW : 1 ≤ bank.width)
    (hN : 1 ≤ bank.count) (p : Nat) : bankIndex bank p < bank.count := by
  unfold bankIndex
  have hL : 0 < bank.width * bank.count := Nat.mul_pos hW hN
  have h1 : p % (bank.width * bank.count) < bank.width * bank.count :=
    Nat.mod_lt _ hL
  rw [Nat.div_lt_iff_lt_mul hW]
  calc p % (bank.width * bank.count) < bank.width * bank.count := h1
    _ = bank.count * bank.width := Nat.mul_comm _ _

theorem split_get_slot (B : List Nat) (bank : BankConfig)
    (hW : 1 ≤ bank.width) (hN : 1 ≤ bank.count) (p : Nat)
    (hp : p < B.length) :
    ((split B bank).getD (bankIndex bank p) [])[slotOf bank p]? = B[p]? := by
  have hk : bankIndex bank p < bank.count := bankIndex_lt bank hW hN p
  have hgd : (split B bank).getD (bankIndex bank p) []
      = (List.range B.length).filterMap
          (fun q => if bankIndex bank q = bankIndex bank p then B[q]?
                    else none) := by
    unfold split
    exact getD_range_map _ [] _ _ hk
  rw [hgd]
  have hplen : p < (List.range B.length).length := by simpa using hp
  have hfp : (fun q => if bankIndex bank q = bankIndex bank p then B[q]?
      else none) ((List.range B.length)[p]) = some B[p] := by
    simp [List.getElem_range, List.getElem?_eq_getElem hp]
  have hmain := filterMap_getElem_countP
    (fun q => if bankIndex bank q = bankIndex bank p then B[q]? else none)
    (List.range B.length) p hplen B[p] hfp
  have hcount : ((List.range B.length).take p).countP
      (fun x => ((fun q => if bankIndex bank q = bankIndex bank p
        then B[q]? else none) x).isSome) = slotOf bank p := by
    rw [List.take_range, Nat.min_eq_left (Nat.le_of_lt hp)]
    unfold slotOf
    apply List.countP_congr
    intro q hq
    have hqp : q < p := List.mem_range.mp hq
    by_cases hqq : bankIndex bank q = bankIndex bank p
    · simp [hqq, List.getElem?_eq_getElem (Nat.lt_trans hqp hp)]
    · simp [hqq]
  rw [hcount] at hmain
  rw [hmain, List.getElem?_eq_getElem hp]

theorem range_filterMap_getElem? (B : List Nat) :
    (List.range B.length).filterMap (fun p => B[p]?) = B := by
  induction B with
  | nil => rfl
  | cons a t ih =>
    show (List.range (t.length + 1)).filterMap
      (fun p => (a :: t)[p]?) = a :: t
    rw [List.range_succ_eq_map, List.filterMap_cons]
    simp only [List.getElem?_cons_zero]
    rw [List.filterMap_map]
    have : ((fun p => (a :: t)[p]?) ∘ Nat.succ) = fun p => t[p]? := by
      funext p
      simp [Function.comp, List.getElem?_cons_succ]
    rw [this, ih]

/-- `C6`: `split` returns exactly `count` buffers; the byte at source
position `p` is placed in bank `(p mod (width*count)) / width` at the slot
counting earlier positions of that bank; and concatenating, for `p` in
order, the byte placed for `p` reconstructs the source buffer exactly. -/
theorem claim_C6_bank_splitter (B : List Nat) (bank : BankConfig)
    (hW : 1 ≤ bank.width) (hN : 1 ≤ bank.count) :
    (split B bank).length = bank.count
    ∧ (∀ p, p < B.length →
        ((split B bank).getD (bankIndex bank p) [])[slotOf bank p]?
          = B[p]?)
    ∧ unsplit (split B bank) bank B.length = B := by
  refine ⟨split_length B bank,
    fun p hp => split_get_slot B bank hW hN p hp, ?_⟩
  unfold unsplit
  rw [List.filterMap_congr (fun p hp =>
    split_get_slot B bank hW hN p (List.mem_range.mp hp))]
  exact range_filterMap_getElem? B

/-- Witness for `claim_C6_bank_splitter`: Scenario C (`--banks 2x4` on the
8-byte buffer `00..07`) and its round-trip, from the theorem itself. -/
theorem claim_C6_witness :
    split [0, 1, 2, 3, 4, 5, 6, 7] { width := 2, count := 4 }
      = [[0, 1], [2, 3], [4, 5], [6, 7]]
    ∧ unsplit (split [0, 1, 2, 3, 4, 5, 6, 7] { width := 2, count := 4 })
        { width := 2, count := 4 } 8 = [0, 1, 2, 3, 4, 5, 6, 7] :=
  ⟨by decide,
   (claim_C6_bank_splitter [0, 1, 2, 3, 4, 5, 6, 7]
     { width := 2, count := 4 } (by decide) (by decide)).2.2⟩

/-! ### Name resolver, modelled from the specification -/

/-- Modelled from the spec: `ArtifactKey` of §3, not under `src/`: the
fields name expansion can reference (source file base name, full name,
segment base address, bank index when banks are in use). -/
structure ArtifactKey where
  source_base : String
  source_full : String
  base_address : Nat
  bank_index : Option Nat
deriving DecidableEq, Repr

/-- Modelled from the spec: `OutputArtifact` of §3, not under `src/`. -/
structure OutputArtifact where
  key : ArtifactKey
  bytes : List Nat
deriving DecidableEq, Repr

/-- Modelled from the spec: `ResolvedOutput` of §3, not under `src/`. -/
structure ResolvedOutput where
  path : String
  bytes : List Nat
deriving DecidableEq, Repr

/-- The fatal conditions of the Name Resolver (§4.5). -/
inductive ResolveError where
  | AmbiguousOutputTarget
  | InvalidPatternDirective
  | DuplicateOutputPath (k1 k2 : ArtifactKey)
deriving DecidableEq, Repr

/-- The naming half of `OutputSpec` (§3): exactly one of
`single_output_path` / the pattern is in use; the pattern applies when
`single_output_path` is `none`. -/
structure NamingSpec where
  single_output_path : Option String
  name_pattern : String
deriving DecidableEq, Repr

/-- The segment base address in hex with no leading zeros (`0` renders as
`0`), lower case (`%a`). -/
def natToHexLower (n : Nat) : String :=
  ⟨Nat.toDigits 16 n⟩

/-- As `natToHexLower` but upper case (`%A`). -/
def natToHexUpper (n : Nat) : String :=
  ⟨(Nat.toDigits 16 n).map Char.toUpper⟩

/-- Expansion of one `%` directive (§4.5); a directive referencing data
the artifact lacks is a fatal `InvalidPatternDirective`. -/
def expandDirective (key : ArtifactKey) (c : Char) :
    Except ResolveError String :=
  if c = 'f' then .ok key.source_base
  else if c = 'F' then .ok key.source_full
  else if c = 'a' then .ok (natToHexLower key.base_address)
  else if c = 'A' then .ok (natToHexUpper key.base_address)
  else if c = 'b' then
    match key.bank_index with
    | none => .error .InvalidPatternDirective
    | some b => .ok (Nat.repr b)
  else if c = '%' then .ok "%"
  else .error .InvalidPatternDirective

/-- Modelled from the spec: pattern expansion of §4.5, not under `src/`
(only its documentation): directives are substituted left to right. -/
def expandPattern (key : ArtifactKey) : List Char → Except ResolveError String
  | [] => .ok ""
  | ['%'] => .error .InvalidPatternDirective
  | '%' :: c :: rest =>
    match expandDirective key c with
    | .error e => .error e
    | .ok s =>
      match expandPattern key rest with
      | .error e => .error e
      | .ok t => .ok (s ++ t)
  | ch :: rest =>
    match expandPattern key rest with
    | .error e => .error e
    | .ok t => .ok (String.singleton ch ++ t)

/-- First pair of artifacts whose computed paths collide, scanning left to
right (§4.5: the first duplicate found names both conflicting keys). -/
def firstDuplicate :
    List (String × OutputArtifact) → Option (ArtifactKey × ArtifactKey)
  | [] => none
  | (p, a) :: rest =>
    match rest.find? (fun pb => pb.1 == p) with
    | some pb => some (a.key, pb.2.key)
    | none => firstDuplicate rest

/-- Modelled from the spec: the Name Resolver `resolve` of §4.5, not under
`src/` (only its documentation): with `single_output_path` set the run may
produce at most one artifact (`AmbiguousOutputTarget` otherwise); with a
pattern every path is computed, then checked for duplicates; the first
duplicate fails the whole run with `DuplicateOutputPath`. -/
def resolve (artifacts : List OutputArtifact) (spec : NamingSpec) :
    Except ResolveError (List ResolvedOutput) :=
  match spec.single_output_path with
  | some p =>
    if 1 < artifacts.length then .error .AmbiguousOutputTarget
    else .ok (artifacts.map (fun a => { path := p, bytes := a.bytes }))
  | none =>
    match artifacts.mapM
        (fun a => (expandPattern a.key spec.name_pattern.toList).map
          (fun s => (s, a))) with
    | .error e => .error e
    | .ok pairs =>
      match firstDuplicate pairs with
      | some ks => .error (.DuplicateOutputPath ks.1 ks.2)
      | none =>
        .ok (pairs.map (fun pa => { path := pa.1, bytes := pa.2.bytes }))

theorem firstDuplicate_eq_none_iff :
    ∀ (l : List (String × OutputArtifact)),
      firstDuplicate l = none ↔ (l.map Prod.fst).Nodup := by
  intro l
  induction l with
  | nil => simp [firstDuplicate]
  | cons pa rest ih =>
    obtain ⟨p, a⟩ := pa
    cases hf : rest.find? (fun pb => pb.1 == p) with
    | some pb =>
      simp only [firstDuplicate, hf]
      constructor
      · intro h; cases h
      · intro hnd
        exfalso
        have hmem := List.mem_of_find?_eq_some hf
        have hp : pb.1 = p := by
          have := List.find?_some hf
          simpa using this
        have hpmem : p ∈ rest.map Prod.fst :=
          List.mem_map.mpr ⟨pb, hmem, hp⟩
        rw [List.map_cons, List.nodup_cons] at hnd
        exact hnd.1 hpmem
    | none =>
      simp only [firstDuplicate, hf]
      rw [List.map_cons, List.nodup_cons, ih]
      have hnotmem : p ∉ rest.map Prod.fst := by
        intro hm
        obtain ⟨x, hxm, hxp⟩ := List.mem_map.mp hm
        have := List.find?_eq_none.mp hf x hxm
        simp [hxp] at this
      exact ⟨fun h => ⟨hnotmem, h⟩, fun h => h.2⟩

/-- `C7`: `resolve` either succeeds with pairwise-distinct paths, or
fails: `AmbiguousOutputTarget` when more than one artifact meets a set
`single_output_path`, and `DuplicateOutputPath` when two computed paths
collide (in which case nothing is resolved). -/
theorem claim_C7_resolve (artifacts : List OutputArtifact)
    (spec : NamingSpec) :
    (∀ outs, resolve artifacts spec = .ok outs →
      (outs.map (fun o => o.path)).Nodup)
    ∧ (∀ p, spec.single_output_path = some p → 1 < artifacts.length →
        resolve artifacts spec = .error .AmbiguousOutputTarget)
    ∧ (∀ pairs, spec.single_output_path = none →
        artifacts.mapM
          (fun a => (expandPattern a.key spec.name_pattern.toList).map
            (fun s => (s, a))) = Except.ok pairs →
        ¬ (pairs.map Prod.fst).Nodup →
        ∃ k1 k2, resolve artifacts spec
          = .error (.DuplicateOutputPath k1 k2)) := by
  obtain ⟨sop, pat⟩ := spec
  refine ⟨?_, ?_, ?_⟩
  · intro outs hok
    cases sop with
    | some p =>
      by_cases hlen : 1 < artifacts.length
      · simp only [resolve, if_pos hlen] at hok
        cases hok
      · simp only [resolve, if_neg hlen] at hok
        injection hok with hout
        subst hout
        match artifacts, hlen with
        | [], _ => simp
        | [a], _ => simp
        | a :: b :: rest, hlen => exact absurd (by simp) hlen
    | none =>
      cases hmm : artifacts.mapM
          (fun a => (expandPattern a.key (String.toList pat)).map
            (fun s => (s, a))) with
      | error e =>
        simp only [resolve, hmm] at hok
        cases hok
      | ok pairs =>
        simp only [resolve, hmm] at hok
        cases hfd : firstDuplicate pairs with
        | some ks =>
          simp only [hfd] at hok
          cases hok
        | none =>
          simp only [hfd] at hok
          injection hok with hout
          subst hout
          have hnd := (firstDuplicate_eq_none_iff pairs).mp hfd
          simpa [List.map_map, Function.comp] using hnd
  · intro p hsp hlen
    simp only at hsp
    subst hsp
    simp only [resolve, if_pos hlen]
  · intro pairs hsp hmm hdup
    simp only at hsp hmm
    subst hsp
    cases hfd : firstDuplicate pairs with
    | none =>
      exact absurd ((firstDuplicate_eq_none_iff pairs).mp hfd) hdup
    | some ks =>
      refine ⟨ks.1, ks.2, ?_⟩
      simp only [resolve, hmm, hfd]

/-- Witness for `claim_C7_resolve`: a two-artifact run with a single
output path set fails `AmbiguousOutputTarget`, and the same artifacts
under the colliding pattern `%f.bin` fail `DuplicateOutputPath`, both from
the theorem itself. -/
theorem claim_C7_witness :
    resolve
      [{ key := { source_base := "one", source_full := "one.elf",
                  base_address := 0x8000, bank_index := none },
         bytes := [1] },
       { key := { source_base := "one", source_full := "one.elf",
                  base_address := 0x9000, bank_index := none },
         bytes := [2] }]
      { single_output_path := some "out.bin", name_pattern := "" }
      = .error .AmbiguousOutputTarget
    ∧ ∃ k1 k2, resolve
        [{ key := { source_base := "one", source_full := "one.elf",
                    base_address := 0x8000, bank_index := none },
           bytes := [1] },
         { key := { source_base := "one", source_full := "one.elf",
                    base_address := 0x9000, bank_index := none },
           bytes := [2] }]
        { single_output_path := none, name_pattern := "%f.bin" }
        = .error (.DuplicateOutputPath k1 k2) := by
  constructor
  · exact (claim_C7_resolve _ _).2.1 "out.bin" rfl (by decide)
  · exact (claim_C7_resolve _ _).2.2
      [("one.bin",
        { key := { source_base := "one", source_full := "one.elf",
                   base_address := 0x8000, bank_index := none },
          bytes := [1] }),
       ("one.bin",
        { key := { source_base := "one", source_full := "one.elf",
                   base_address := 0x9000, bank_index := none },
          bytes := [2] })]
      rfl (by rfl) (by decide)

end Elf2Bin
